import Mathlib

/-
  Verification development for the mie-ollama-translate repository.

  The client side (frontend/main.js) and the server side (backend/server.js)
  are shallowly embedded below.  Text, hashes and language tags are lists of
  characters; JS `Map`s are insertion-ordered association lists; JS `Set`s are
  insertion-ordered duplicate-free lists built by add-if-absent.
-/

namespace MT

/-- Text, hashes and language tags, as JS strings: lists of characters. -/
abbrev Str := List Char

/-- Convenience coercion from Lean string literals. -/
def str (s : String) : Str := s.data

/-- CONFIG.TRANSLATION_PREFIX: the zero-width-space marker (main.js line 127). -/
def TRANSLATION_PREFIX : Str := str "\u200B"

/-- The zero-width space character itself. -/
def zwsp : Char := '\u200B'

/-- CONFIG.DEBOUNCE_DELAY (main.js line 129). -/
def DEBOUNCE_DELAY : Nat := 100

/-- CONFIG.CACHE_SIZE (main.js line 131). -/
def CACHE_SIZE : Nat := 1000

/-- CONFIG.MIN_TEXT_LENGTH (main.js line 132). -/
def MIN_TEXT_LENGTH : Nat := 2

/-- Association-list lookup, modelling JS Map.get. -/
def alookup {α β : Type} [DecidableEq α] (k : α) : List (α × β) → Option β
  | [] => none
  | p :: rest => if p.1 = k then some p.2 else alookup k rest

/-- JS Map.set: update the value in place if the key exists (keeping its
insertion position), otherwise append a fresh entry at the end. -/
def mapSet (m : List (Str × Str)) (k v : Str) : List (Str × Str) :=
  if (alookup k m).isSome then m.map (fun p => if p.1 = k then (k, v) else p)
  else m ++ [(k, v)]

/-- TranslationCache.setTranslation (main.js lines 175-181): evict the
oldest-inserted entry when at capacity, then Map.set the new entry. -/
def setTranslation (maxSize : Nat) (cache : List (Str × Str)) (h v : Str) :
    List (Str × Str) :=
  let cache1 := if maxSize ≤ cache.length then cache.drop 1 else cache
  mapSet cache1 h v

/-- One outbound request record, as queued by SocketManager (main.js 475-479). -/
structure Request where
  text : Str
  hash : Str
  targetLang : Str
deriving DecidableEq

/-- A TranslatableItem as produced by ElementProcessor: an opaque location
(`loc` stands for the node/element-attribute pair), the extracted text and its
hash.  The `type`, `parent` and `className` fields play no role in the
behaviour modelled here. -/
structure Item where
  loc : Nat
  text : Str
  hash : Str
deriving DecidableEq

/-- The combined client state: TranslationCache (cache and hashCache,
main.js 146-190) and SocketManager (sendQueue, sentHashes, isConnected,
reconnectAttempts, pendingNodes, main.js 421-430), plus the current
CONFIG.TARGET_LANGUAGE. -/
structure ClientState where
  cache : List (Str × Str)
  maxSize : Nat
  hashCache : List (Str × Str)
  sendQueue : List Request
  sentHashes : List Str
  isConnected : Bool
  reconnectAttempts : Nat
  pendingNodes : List (Str × List Item)
  targetLang : Str
deriving DecidableEq

/-- The freshly constructed client (main.js constructors). -/
def initClient (lang : Str) : ClientState :=
  ⟨[], CACHE_SIZE, [], [], [], false, 0, [], lang⟩

/-- Observable client actions: a websocket batch send, or a DOM write of a
value to a location. -/
inductive Out where
  | send (batch : List Request)
  | write (loc : Nat) (value : Str)
deriving DecidableEq

/-- SocketManager.flushQueue (main.js 487-499): if the send queue is nonempty,
send its whole content as one translation_request batch and clear it. -/
def flushQueue (st : ClientState) : ClientState × List Out :=
  if st.sendQueue = [] then (st, [])
  else ({ st with sendQueue := [] }, [Out.send st.sendQueue])

/-- JS Set.add on the send queue: insert the record if not already present. -/
def addReq (q : List Request) (r : Request) : List Request :=
  if r ∈ q then q else q ++ [r]

/-- The tail of queueForTranslation (main.js 482-484): flush at once when
connected, otherwise leave the queued request waiting. -/
def flushIfConnected (st : ClientState) : ClientState × List Out :=
  if st.isConnected then flushQueue st else (st, [])

/-- The state after queueForTranslation records a fresh request
(main.js 475-480): the request joins the send queue and its hash joins
sentHashes. -/
def enqueueRecord (st : ClientState) (text h : Str) : ClientState :=
  { st with
    sendQueue := addReq st.sendQueue ⟨text, h, st.targetLang⟩,
    sentHashes := st.sentHashes ++ [h] }

/-- SocketManager.queueForTranslation (main.js 472-485): no-op when the hash
was already sent; otherwise record the request, mark the hash sent, and flush
immediately when connected. -/
def queueForTranslation (st : ClientState) (text h : Str) : ClientState × List Out :=
  if h ∈ st.sentHashes then (st, [])
  else flushIfConnected (enqueueRecord st text h)

/-- JS Set.add on a pending-item set. -/
def setAddItem (s : List Item) (i : Item) : List Item :=
  if i ∈ s then s else s ++ [i]

/-- SocketManager.registerPending (main.js 501-506). -/
def registerPending (st : ClientState) (h : Str) (item : Item) : ClientState :=
  match alookup h st.pendingNodes with
  | none => { st with pendingNodes := st.pendingNodes ++ [(h, [item])] }
  | some s => { st with pendingNodes :=
      st.pendingNodes.map (fun e => if e.1 = h then (h, setAddItem s item) else e) }

/-- Boolean string-prefix test, modelling JS String.startsWith. -/
def startsWith : Str → Str → Bool
  | [], _ => true
  | _ :: _, [] => false
  | a :: as, b :: bs => decide (a = b) && startsWith as bs

/-- The prefixed translation built in SocketManager.handleMessage
(main.js 513-515). -/
def finalTranslation (translated : Str) : Str :=
  if startsWith TRANSLATION_PREFIX translated then translated
  else TRANSLATION_PREFIX ++ translated

/-- JS Map.delete on the pending-nodes map. -/
def deleteKey (p : List (Str × List Item)) (h : Str) : List (Str × List Item) :=
  p.filter (fun e => !decide (e.1 = h))

/-- SocketManager.handleMessage on a translation_result message
(main.js 508-537): prefix the translation, cache it, apply it to every pending
item registered for the hash and drop that pending entry. -/
def handleMessage (st : ClientState) (h translated : Str) : ClientState × List Out :=
  let final := finalTranslation translated
  let st1 := { st with cache := setTranslation st.maxSize st.cache h final }
  match alookup h st1.pendingNodes with
  | none => (st1, [])
  | some items =>
      ({ st1 with pendingNodes := deleteKey st1.pendingNodes h },
       items.map (fun i => Out.write i.loc final))

/-- applyTranslation (main.js 552-587): on a cache hit write the cached value
to the location; otherwise queue the hash for translation, register the item
as pending, and write the placeholder (marker prefix + original text). -/
def applyTranslation (st : ClientState) (item : Item) : ClientState × List Out :=
  match alookup item.hash st.cache with
  | some v => (st, [Out.write item.loc v])
  | none =>
    let p := queueForTranslation st item.text item.hash
    let st2 := registerPending p.1 item.hash item
    (st2, p.2 ++ [Out.write item.loc (TRANSLATION_PREFIX ++ item.text)])

/-- socket.onopen (main.js 436-441): mark connected, reset the backoff
counter, flush the queue. -/
def onOpen (st : ClientState) : ClientState × List Out :=
  flushQueue { st with isConnected := true, reconnectAttempts := 0 }

/-- socket.onclose (main.js 443-447): mark disconnected. -/
def onClose (st : ClientState) : ClientState :=
  { st with isConnected := false }

/-- Client events during one session at a fixed target language: processing an
extracted item, the individual SocketManager entry points, and socket
open/close transitions. -/
inductive Ev where
  | applyItem (item : Item)
  | queueTr (text h : Str)
  | register (h : Str) (item : Item)
  | result (h translated : Str)
  | sockOpen
  | sockClose
deriving DecidableEq

/-- One client step. -/
def step (st : ClientState) : Ev → ClientState × List Out
  | .applyItem item => applyTranslation st item
  | .queueTr text h => queueForTranslation st text h
  | .register h item => (registerPending st h item, [])
  | .result h translated => handleMessage st h translated
  | .sockOpen => onOpen st
  | .sockClose => (onClose st, [])

/-- Run a list of client events, collecting all observable actions in order. -/
def run (st : ClientState) : List Ev → ClientState × List Out
  | [] => (st, [])
  | e :: evs =>
    let p := step st e
    let q := run p.1 evs
    (q.1, p.2 ++ q.2)

/-- The payload hashed by TranslationCache.getHash (main.js 158-160): the text
with the target language concatenated after a separator bar. -/
def hashPayload (text lang : Str) : Str := text ++ str "|" ++ lang

/-- TranslationCache.getHash (main.js 153-173) with the SHA-256 digest
abstracted as a function argument: serve a memoised hash when the text is in
the hashCache, otherwise digest the text-plus-language payload, evict the
oldest memo entry when at capacity, and memoise the new hash. -/
def getHash (digest : Str → Str) (lang : Str) (maxSize : Nat)
    (m : List (Str × Str)) (text : Str) : Str × List (Str × Str) :=
  match alookup text m with
  | some h => (h, m)
  | none =>
    let h := digest (hashPayload text lang)
    let m1 := if maxSize ≤ m.length then m.drop 1 else m
    (h, m1 ++ [(text, h)])

/-- Memo consistency: every hashCache entry stores the digest of its own
text-plus-language payload. -/
def HashInv (digest : Str → Str) (lang : Str) (m : List (Str × Str)) : Prop :=
  ∀ p ∈ m, p.2 = digest (hashPayload p.1 lang)

/-- The character set removed by JS String.trim (WhiteSpace and
LineTerminator code points).  The zero-width space U+200B is not among them. -/
def jsWhitespaceChars : List Char :=
  [' ', '\t', '\n', '\r', '\x0b', '\x0c', '\u00A0', '\u1680',
   '\u2000', '\u2001', '\u2002', '\u2003', '\u2004', '\u2005', '\u2006',
   '\u2007', '\u2008', '\u2009', '\u200A', '\u2028', '\u2029', '\u202F',
   '\u205F', '\u3000', '\uFEFF']

/-- Whether JS String.trim removes this character. -/
def isJsWhitespace (c : Char) : Bool := decide (c ∈ jsWhitespaceChars)

/-- Drop matching characters from the end of a string. -/
def dropWhileEnd (p : Char → Bool) (l : Str) : Str :=
  (l.reverse.dropWhile p).reverse

/-- JS String.trim: drop whitespace from both ends. -/
def jsTrim (l : Str) : Str := dropWhileEnd isJsWhitespace (l.dropWhile isJsWhitespace)

/-- shouldTranslateText (main.js 198-248).  The early-return chain is
translated exactly: empty or too-short text and text already carrying the
marker prefix are rejected.  The remaining body (the icon heuristic, the
regex battery, the digit-ratio, month-name and file-extension checks,
main.js 207-247) is the text-classification policy the spec declares an
external, replaceable collaborator; it is abstracted as `restPolicy`, and
every theorem below holds for all instantiations of it. -/
def shouldTranslateText (restPolicy : Str → Bool) (text : Str) : Bool :=
  let trimmed := jsTrim text
  if trimmed = [] ∨ trimmed.length < MIN_TEXT_LENGTH then false
  else if startsWith TRANSLATION_PREFIX trimmed then false
  else restPolicy trimmed

/-- The mutation-coalescing state of OptimizedMutationHandler (main.js
670-675): the pending accumulation set and the armed debounce timer, recorded
as its absolute fire deadline in virtual time. -/
structure MutState where
  pendingMutations : List Nat
  debounceTimer : Option Nat
deriving DecidableEq

/-- The freshly constructed handler. -/
def initMut : MutState := ⟨[], none⟩

/-- JS Set.add on the pending-mutation set. -/
def setAddNode (l : List Nat) (n : Nat) : List Nat :=
  if n ∈ l then l else l ++ [n]

/-- Add a batch of notified nodes to the pending set. -/
def addNodes (l : List Nat) (ns : List Nat) : List Nat := ns.foldl setAddNode l

/-- OptimizedMutationHandler.scheduleProcessing (main.js 698-708): clear any
existing timer and arm a new one DEBOUNCE_DELAY units from now. -/
def scheduleProcessing (now : Nat) (s : MutState) : MutState :=
  { s with debounceTimer := some (now + DEBOUNCE_DELAY) }

/-- OptimizedMutationHandler.handleMutations (main.js 677-696): add every
notified node to the pending set, then debounce. -/
def handleMutations (now : Nat) (ns : List Nat) (s : MutState) : MutState :=
  scheduleProcessing now { s with pendingMutations := addNodes s.pendingMutations ns }

/-- OptimizedMutationHandler.processPendingMutations (main.js 710-740):
return early when nothing is pending, otherwise swap the accumulation set out
atomically and emit it as one batch. -/
def processPendingMutations (s : MutState) : MutState × Option (List Nat) :=
  if s.pendingMutations = [] then (s, none)
  else ({ s with pendingMutations := [] }, some s.pendingMutations)

/-- The debounce timer fires: it is no longer armed, and the pending set is
processed. -/
def timerFire (s : MutState) : MutState × Option (List Nat) :=
  processPendingMutations { s with debounceTimer := none }

/-- Run the coalescer over timestamped notification events.  Before an event
at time `t`, an armed timer with deadline `d ≤ t` fires first; after the last
event, an armed timer eventually fires.  Emitted batches are collected in
order. -/
def timedRun (s : MutState) : List (Nat × List Nat) → MutState × List (List Nat)
  | [] =>
    match s.debounceTimer with
    | none => (s, [])
    | some _ =>
      let r := timerFire s
      (r.1, r.2.toList)
  | (t, ns) :: rest =>
    match s.debounceTimer with
    | some d =>
      if d ≤ t then
        let r := timerFire s
        let q := timedRun (handleMutations t ns r.1) rest
        (q.1, r.2.toList ++ q.2)
      else timedRun (handleMutations t ns s) rest
    | none => timedRun (handleMutations t ns s) rest

/-- Union of all nodes notified by a list of events, in arrival order. -/
def accumAll (acc : List Nat) (evs : List (Nat × List Nat)) : List Nat :=
  evs.foldl (fun a p => addNodes a p.2) acc

/-- One task pushed onto the server's translation queue (server.js 140):
the request item, the originating connection, and the batch's target
language. -/
structure STask where
  item : Request
  conn : Nat
  targetLang : Str
deriving DecidableEq

/-- Server-to-client messages (server.js 27-32, 46-51, 144-148). -/
inductive SrvOut where
  | ack (conn : Nat) (count : Nat)
  | result (conn : Nat) (hash orig translated : Str)
deriving DecidableEq

/-- Whether a server message is an acknowledgement. -/
def SrvOut.isAck : SrvOut → Bool
  | .ack _ _ => true
  | .result _ _ _ _ => false

/-- The batch target language (server.js 136): the first item's targetLang,
falling back to "es" when the batch is empty or the tag is the empty
(falsy) string. -/
def batchLang (payload : List Request) : Str :=
  match payload.head? with
  | some r => if r.targetLang = [] then str "es" else r.targetLang
  | none => str "es"

/-- The server's per-connection message handler for a translation_request
(server.js 131-153): push one queue task per payload item and send a single
ack; no cache lookup and no result message happen here. -/
def handleConnMessage (payload : List Request) (conn : Nat) :
    List STask × List SrvOut :=
  (payload.map (fun it => ⟨it, conn, batchLang payload⟩),
   [SrvOut.ack conn payload.length])

/-- The body of one translationQueue task (server.js 17-57): on a server-cache
hit send the cached translation back (no provider call); on a miss call the
provider, and on success cache the result and send it back; on provider
failure do nothing further.  Returns the new server cache, the messages sent,
and the number of provider calls made. -/
def runTask (provider : Str → Str → Except Str Str) (cache : List (Str × Str))
    (t : STask) (connOpen : Nat → Bool) :
    List (Str × Str) × List SrvOut × Nat :=
  match alookup t.item.hash cache with
  | some cached =>
      (cache,
       (if connOpen t.conn then
          [SrvOut.result t.conn t.item.hash t.item.text cached] else []),
       0)
  | none =>
      match provider t.item.text t.targetLang with
      | .ok translated =>
          (mapSet cache t.item.hash translated,
           (if connOpen t.conn then
              [SrvOut.result t.conn t.item.hash t.item.text translated] else []),
           1)
      | .error _ => (cache, [], 1)

/-- Run a list of queue tasks in admission order, threading the server cache
and collecting all messages and the total number of provider calls. -/
def runTasks (provider : Str → Str → Except Str Str) (cache : List (Str × Str)) :
    List STask → (Nat → Bool) → List (Str × Str) × List SrvOut × Nat
  | [], _ => (cache, [], 0)
  | t :: rest, connOpen =>
    let r1 := runTask provider cache t connOpen
    let r2 := runTasks provider r1.1 rest connOpen
    (r2.1, r1.2.1 ++ r2.2.1, r1.2.2 + r2.2.2)

/-- The concurrency limit of the server's async.queue (server.js 57). -/
def qK : Nat := 5

/-- The async.queue scheduler state: the tasks currently in flight (each one
holds a provider call or a cache lookup) and the FIFO backlog. -/
structure QState where
  running : List STask
  waiting : List STask
deriving DecidableEq

/-- The initially empty queue. -/
def emptyQ : QState := ⟨[], []⟩

/-- Pushing a task (server.js 140): start it at once while fewer than qK
tasks are in flight, otherwise append it to the FIFO backlog. -/
def qpush (q : QState) (t : STask) : QState :=
  if q.running.length < qK then { q with running := q.running ++ [t] }
  else { q with waiting := q.waiting ++ [t] }

/-- An in-flight task at index `i` finishes (successfully or not): it leaves
the running set and, if the backlog is nonempty, its head is admitted. -/
def qcomplete (q : QState) (i : Nat) : QState :=
  if i < q.running.length then
    let r := q.running.eraseIdx i
    match q.waiting with
    | [] => ⟨r, []⟩
    | w :: ws => ⟨r ++ [w], ws⟩
  else q

/-- Queue scheduler events. -/
inductive QEv where
  | push (t : STask)
  | complete (i : Nat)

/-- One scheduler step. -/
def qstep (q : QState) : QEv → QState
  | .push t => qpush q t
  | .complete i => qcomplete q i

/-- The state reached from the empty queue after a list of events. -/
def qrun (q : QState) (evs : List QEv) : QState := evs.foldl qstep q

/-- Completing the oldest in-flight task `n` times in a row. -/
def qdrain (q : QState) : Nat → QState
  | 0 => q
  | n + 1 => qdrain (qcomplete q 0) n

/-- Register a list of items for one hash, in order (N register calls). -/
def registerAll (st : ClientState) (h : Str) (items : List Item) : ClientState :=
  items.foldl (fun s i => registerPending s h i) st

/-- Whether a batch contains a request for hash `H`. -/
def batchHas (H : Str) (b : List Request) : Bool :=
  b.any fun r => decide (r.hash = H)

/-- Whether an observable action is a websocket send containing hash `H`. -/
def isSendWith (H : Str) : Out → Bool
  | .send b => batchHas H b
  | .write _ _ => false

/-- How many sent batches contain a request for hash `H`. -/
def countSends (H : Str) (outs : List Out) : Nat := outs.countP (isSendWith H)

/-- Whether the outbound queue currently holds a request for hash `H`. -/
def queueHas (H : Str) (st : ClientState) : Bool :=
  st.sendQueue.any fun r => decide (r.hash = H)

/-- The at-most-once bookkeeping invariant for hash `H`: `n` counts the
batches containing `H` sent so far; together with a possible queued copy it
never exceeds one, and nothing was sent or queued before `H` entered
sentHashes. -/
def C1Inv (H : Str) (st : ClientState) (n : Nat) : Prop :=
  n + (if queueHas H st then 1 else 0) ≤ 1 ∧
  (H ∉ st.sentHashes → n = 0 ∧ queueHas H st = false)

/-- Every translation stored in the client cache carries the marker prefix. -/
def CacheInv (st : ClientState) : Prop :=
  ∀ p ∈ st.cache, startsWith TRANSLATION_PREFIX p.2 = true

/-- The scheduler invariant of the bounded queue: never more than qK tasks in
flight, and a nonempty backlog means the in-flight set is saturated. -/
def QInv (q : QState) : Prop :=
  q.running.length ≤ qK ∧ (q.waiting ≠ [] → q.running.length = qK)

/-- A concrete request used by the witnesses below. -/
def sampleReq : Request := ⟨str "t", str "h", str "es"⟩

/-- A concrete queue task used by the witnesses below. -/
def sampleTask : STask := ⟨sampleReq, 0, str "es"⟩

/-- A concrete translatable item used by the witnesses below. -/
def sampleItem : Item := ⟨0, str "t", str "h"⟩

/-- A concrete client session used by the witnesses below: connect, process
two items sharing one hash, receive the result, and process a third item with
the same hash. -/
def sampleEvs : List Ev :=
  [Ev.sockOpen, Ev.applyItem sampleItem, Ev.applyItem ⟨1, str "t", str "h"⟩,
   Ev.result (str "h") (str "X"), Ev.applyItem ⟨2, str "t", str "h"⟩]

/-- A client state that has already sent hash "h". -/
def witSt : ClientState := { initClient (str "es") with sentHashes := [str "h"] }

/-- A client state holding one queued request while disconnected. -/
def witStQueued : ClientState := { initClient (str "es") with sendQueue := [sampleReq] }

/-- A connected client state with an empty queue. -/
def witStConn : ClientState := { initClient (str "es") with isConnected := true }

/-- A saturated queue state: qK tasks in flight, one waiting. -/
def witQ : QState := ⟨[sampleTask, sampleTask, sampleTask, sampleTask, sampleTask], [sampleTask]⟩

/-- Seven pushes into the empty queue (the spec's 7-request scenario). -/
def sampleQEvs : List QEv :=
  [QEv.push sampleTask, QEv.push sampleTask, QEv.push sampleTask, QEv.push sampleTask,
   QEv.push sampleTask, QEv.push sampleTask, QEv.push sampleTask]

/-- Forty timestamped notifications within 50 time-units (the spec's
40-notification scenario): node `i` is notified at time `i`. -/
def sampleMutEvs : List (Nat × List Nat) :=
  (List.range 40).map fun i => (i, [i])

/-- Each notification arrives strictly within DEBOUNCE_DELAY time-units of the
previous one (so the re-armed quiescence timer never fires in between). -/
def gapsOk : List (Nat × List Nat) → Bool
  | [] => true
  | [_] => true
  | a :: b :: rest => decide (b.1 < a.1 + DEBOUNCE_DELAY) && gapsOk (b :: rest)

theorem alookup_mem' {α β : Type} [DecidableEq α] {k : α} {v : β} :
    ∀ {m : List (α × β)}, alookup k m = some v → (k, v) ∈ m := by
  intro m h
  induction m with
  | nil => simp [alookup] at h
  | cons p rest ih =>
    obtain ⟨a, b⟩ := p
    by_cases hp : a = k
    · subst hp
      simp [alookup] at h
      subst h
      exact List.mem_cons_self _ _
    · simp [alookup, hp] at h
      exact List.mem_cons_of_mem _ (ih h)

/-- C6: the content hash is a pure, deterministic function of the
(text, target language) pair.  With the SHA-256 digest abstracted as an
arbitrary function, getHash always returns the digest of the
text-plus-language payload — also when the result is served from the
text-keyed memo, provided every memo entry is the digest of its own payload,
a property getHash preserves — and two distinct target languages always
produce distinct hashed payloads, because the language is concatenated into
the payload. -/
theorem C6_hash_deterministic_language_separated
    (digest : Str → Str) (lang text : Str) (maxSize : Nat) (m : List (Str × Str))
    (t l1 l2 : Str)
    (hinv : HashInv digest lang m) (hne : l1 ≠ l2) :
    (getHash digest lang maxSize m text).1 = digest (hashPayload text lang) ∧
    HashInv digest lang (getHash digest lang maxSize m text).2 ∧
    hashPayload t l1 ≠ hashPayload t l2 := by
  refine ⟨?_, ?_, ?_⟩
  · unfold getHash
    cases hl : alookup text m with
    | none => simp
    | some h => simpa using hinv _ (alookup_mem' hl)
  · unfold getHash
    cases hl : alookup text m with
    | none =>
      simp only [HashInv]
      intro p hp
      rcases List.mem_append.mp hp with hp1 | hp2
      · apply hinv
        by_cases hc : maxSize ≤ m.length
        · simp only [hc, if_pos] at hp1
          exact List.mem_of_mem_drop hp1
        · simpa [hc] using hp1
      · simp at hp2
        simp [hp2]
    | some h => simpa using hinv
  · intro he
    unfold hashPayload at he
    exact hne (List.append_cancel_left he)

/-- Witness for C6 at a concrete input: the identity digest, language "es",
an empty memo. -/
theorem C6_witness :
    HashInv id (str "es") [] ∧ str "fr" ≠ str "de" ∧
    ((getHash id (str "es") CACHE_SIZE [] (str "t")).1 =
        id (hashPayload (str "t") (str "es")) ∧
      HashInv id (str "es") (getHash id (str "es") CACHE_SIZE [] (str "t")).2 ∧
      hashPayload (str "t") (str "fr") ≠ hashPayload (str "t") (str "de")) :=
  ⟨by simp [HashInv], by decide,
   C6_hash_deterministic_language_separated id (str "es") (str "t") CACHE_SIZE []
     (str "t") (str "fr") (str "de") (by simp [HashInv]) (by decide)⟩

theorem mem_setAddNode {n m : Nat} {l : List Nat} :
    n ∈ setAddNode l m ↔ n ∈ l ∨ n = m := by
  unfold setAddNode
  split
  · constructor
    · exact Or.inl
    · rintro (h | rfl)
      · exact h
      · assumption
  · simp

theorem mem_addNodes {n : Nat} :
    ∀ {ns l : List Nat}, n ∈ addNodes l ns ↔ n ∈ l ∨ n ∈ ns := by
  intro ns
  induction ns with
  | nil => simp [addNodes]
  | cons m rest ih =>
    intro l
    have h1 : addNodes l (m :: rest) = addNodes (setAddNode l m) rest := rfl
    rw [h1, ih, mem_setAddNode]
    simp [or_assoc]

/-- C3 counterexample: two notifications at virtual times 0 and 50.  The
claim says the quiescence timer armed at time 0 (deadline 100) is not
re-armed by the second notification; the code's scheduleProcessing clears and
re-arms it, so after the second notification the deadline is 150, not 100. -/
theorem C3_counterexample_timer_rearmed :
    (handleMutations 50 [1] (handleMutations 0 [0] initMut)).debounceTimer = some 150 ∧
    (handleMutations 0 [0] initMut).debounceTimer = some 100 ∧
    (handleMutations 50 [1] (handleMutations 0 [0] initMut)).debounceTimer ≠
      (handleMutations 0 [0] initMut).debounceTimer := by
  decide

/-- C3 amended: every notification adds the notified nodes to the pending
accumulation set AND re-arms the quiescence timer — scheduleProcessing clears
any running timer and arms a new one DEBOUNCE_DELAY (100) time-units after
the notification, whether the coalescer was Idle or already Accumulating. -/
theorem C3_amended_every_notification_rearms
    (now : Nat) (ns : List Nat) (s : MutState) (n : Nat) :
    (handleMutations now ns s).debounceTimer = some (now + DEBOUNCE_DELAY) ∧
    (n ∈ (handleMutations now ns s).pendingMutations ↔
      n ∈ s.pendingMutations ∨ n ∈ ns) := by
  constructor
  · rfl
  · show n ∈ addNodes s.pendingMutations ns ↔ _
    exact mem_addNodes

theorem QInv_emptyQ : QInv emptyQ := by
  constructor <;> simp [emptyQ, qK]

theorem QInv_qpush {q : QState} (t : STask) (h : QInv q) : QInv (qpush q t) := by
  obtain ⟨h1, h2⟩ := h
  unfold qpush
  split
  · rename_i hlt
    refine ⟨by simpa using hlt, ?_⟩
    intro hw
    simp only at hw
    have := h2 hw
    omega
  · rename_i hge
    refine ⟨h1, ?_⟩
    intro _
    simp only
    omega

theorem QInv_qcomplete {q : QState} (i : Nat) (h : QInv q) : QInv (qcomplete q i) := by
  obtain ⟨h1, h2⟩ := h
  by_cases hi : i < q.running.length
  · have hlen : (q.running.eraseIdx i).length = q.running.length - 1 := by
      rw [List.length_eraseIdx, if_pos hi]
    cases hw : q.waiting with
    | nil =>
      have heq : qcomplete q i = ⟨q.running.eraseIdx i, []⟩ := by
        unfold qcomplete
        rw [if_pos hi, hw]
      rw [heq]
      refine ⟨?_, ?_⟩
      · simp only [hlen]
        omega
      · intro hc
        simp at hc
    | cons w ws =>
      have hK : q.running.length = qK := h2 (by simp [hw])
      have heq : qcomplete q i = ⟨q.running.eraseIdx i ++ [w], ws⟩ := by
        unfold qcomplete
        rw [if_pos hi, hw]
      rw [heq]
      refine ⟨?_, ?_⟩
      · simp only [List.length_append, hlen, List.length_cons, List.length_nil]
        omega
      · intro _
        simp only [List.length_append, hlen, List.length_cons, List.length_nil]
        omega
  · have heq : qcomplete q i = q := by
      unfold qcomplete
      rw [if_neg hi]
    rw [heq]
    exact ⟨h1, h2⟩

theorem QInv_qrun (evs : List QEv) : ∀ {q : QState}, QInv q → QInv (qrun q evs) := by
  induction evs with
  | nil => intro q h; exact h
  | cons e rest ih =>
    intro q h
    have hstep : QInv (qstep q e) := by
      cases e with
      | push t => exact QInv_qpush t h
      | complete i => exact QInv_qcomplete i h
    exact ih hstep

theorem qcomplete_zero_total {q : QState} (hne : q.running ≠ []) :
    (qcomplete q 0).running.length + (qcomplete q 0).waiting.length + 1 =
      q.running.length + q.waiting.length := by
  obtain ⟨r, rs, hr⟩ := List.exists_cons_of_ne_nil hne
  unfold qcomplete
  rw [hr]
  simp only [List.length_cons]
  rw [if_pos (Nat.succ_pos _)]
  have herase : (r :: rs).eraseIdx 0 = rs := rfl
  cases hw : q.waiting with
  | nil => simp [herase]
  | cons w ws =>
    simp [herase]
    omega

theorem qdrain_empties : ∀ (n : Nat) (q : QState), QInv q →
    q.running.length + q.waiting.length = n → qdrain q n = emptyQ := by
  intro n
  induction n with
  | zero =>
    intro q _ htot
    obtain ⟨run0, wait0⟩ : q.running.length = 0 ∧ q.waiting.length = 0 := by omega
    have h1 : q.running = [] := List.length_eq_zero.mp run0
    have h2 : q.waiting = [] := List.length_eq_zero.mp wait0
    show q = emptyQ
    cases q
    simp_all [emptyQ]
  | succ n ih =>
    intro q hinv htot
    have hne : q.running ≠ [] := by
      intro hr
      have hw : q.waiting = [] := by
        by_contra hwne
        have := hinv.2 hwne
        rw [hr] at this
        simp [qK] at this
      rw [hr, hw] at htot
      simp at htot
    have hstep : qdrain q (n + 1) = qdrain (qcomplete q 0) n := rfl
    rw [hstep]
    apply ih
    · exact QInv_qcomplete 0 hinv
    · have := qcomplete_zero_total hne
      omega

/-- C5: the server work queue keeps at most qK = 5 tasks (hence at most 5
provider calls) in flight in every state reachable from the empty queue, no
matter which pushes and completions occur; a push beyond the limit joins the
FIFO backlog without starting; a completion admits exactly the backlog head;
and from any reachable state, completing the oldest in-flight task once per
remaining task drains the queue completely, so every admitted task eventually
runs and finishes. -/
theorem C5_bounded_concurrency
    (evs : List QEv) (q : QState) (t : STask) (i : Nat) (w : STask) (ws : List STask)
    (hK : qK ≤ q.running.length) (hw : q.waiting = w :: ws)
    (hi : i < q.running.length) :
    (qrun emptyQ evs).running.length ≤ qK ∧
    (qpush q t).running = q.running ∧
    (qpush q t).waiting = q.waiting ++ [t] ∧
    (qcomplete q i).waiting = ws ∧
    w ∈ (qcomplete q i).running ∧
    qdrain (qrun emptyQ evs)
      ((qrun emptyQ evs).running.length + (qrun emptyQ evs).waiting.length) = emptyQ := by
  have hreach : QInv (qrun emptyQ evs) := QInv_qrun evs QInv_emptyQ
  refine ⟨hreach.1, ?_, ?_, ?_, ?_, ?_⟩
  · unfold qpush
    rw [if_neg (by omega)]
  · unfold qpush
    rw [if_neg (by omega)]
  · unfold qcomplete
    rw [if_pos hi, hw]
  · unfold qcomplete
    rw [if_pos hi, hw]
    simp
  · exact qdrain_empties _ _ hreach rfl

/-- Witness for C5: the 7-push scenario against a saturated concrete queue
state with one waiting task. -/
theorem C5_witness :
    qK ≤ witQ.running.length ∧ witQ.waiting = sampleTask :: [] ∧ 0 < witQ.running.length ∧
    ((qrun emptyQ sampleQEvs).running.length ≤ qK ∧
      (qpush witQ sampleTask).running = witQ.running ∧
      (qpush witQ sampleTask).waiting = witQ.waiting ++ [sampleTask] ∧
      (qcomplete witQ 0).waiting = [] ∧
      sampleTask ∈ (qcomplete witQ 0).running ∧
      qdrain (qrun emptyQ sampleQEvs)
        ((qrun emptyQ sampleQEvs).running.length +
          (qrun emptyQ sampleQEvs).waiting.length) = emptyQ) :=
  ⟨by decide, by decide, by decide,
   C5_bounded_concurrency sampleQEvs witQ sampleTask 0 sampleTask []
     (by decide) (by decide) (by decide)⟩

theorem mem_accumAll {n : Nat} :
    ∀ {evs : List (Nat × List Nat)} {acc : List Nat},
      n ∈ accumAll acc evs ↔ n ∈ acc ∨ n ∈ (evs.map Prod.snd).flatten := by
  intro evs
  induction evs with
  | nil =>
    intro acc
    simp [accumAll]
  | cons e rest ih =>
    intro acc
    have h1 : accumAll acc (e :: rest) = accumAll (addNodes acc e.2) rest := rfl
    rw [h1, ih, mem_addNodes]
    simp [or_assoc]

theorem timedRun_no_fire :
    ∀ (evs : List (Nat × List Nat)) (hd : Nat × List Nat) (acc : List Nat),
      List.Chain (fun a b => b.1 < a.1 + DEBOUNCE_DELAY) hd evs →
      timedRun ⟨acc, some (hd.1 + DEBOUNCE_DELAY)⟩ evs =
        (initMut, if accumAll acc evs = [] then [] else [accumAll acc evs]) := by
  intro evs
  induction evs with
  | nil =>
    intro hd acc _
    by_cases hacc : acc = []
    · simp [timedRun, timerFire, processPendingMutations, hacc, accumAll, initMut]
    · simp [timedRun, timerFire, processPendingMutations, hacc, accumAll, initMut]
  | cons e rest ih =>
    intro hd acc hch
    obtain ⟨t, ns⟩ := e
    rw [List.chain_cons] at hch
    obtain ⟨hlt, hch'⟩ := hch
    have hnot : ¬ (hd.1 + DEBOUNCE_DELAY ≤ t) := by
      simp only at hlt
      omega
    have hstep : timedRun ⟨acc, some (hd.1 + DEBOUNCE_DELAY)⟩ ((t, ns) :: rest) =
        timedRun (handleMutations t ns ⟨acc, some (hd.1 + DEBOUNCE_DELAY)⟩) rest := by
      simp [timedRun, hnot]
    rw [hstep]
    have hhm : handleMutations t ns ⟨acc, some (hd.1 + DEBOUNCE_DELAY)⟩ =
        ⟨addNodes acc ns, some (t + DEBOUNCE_DELAY)⟩ := rfl
    rw [hhm]
    exact ih (t, ns) (addNodes acc ns) hch'

/-- C7: when notifications keep arriving within the quiescence window, the
timer fires exactly once: the accumulation set is swapped out atomically and
emitted as one single batch that contains a node if and only if some
notification before the flush contained it (no notification is dropped), and
the post-flush state is the fresh initial state, so later notifications start
a new accumulation cycle instead of joining or blocking the flushed one. -/
theorem chain_of_gapsOk :
    ∀ {evs : List (Nat × List Nat)} {hd : Nat × List Nat}, gapsOk (hd :: evs) = true →
      List.Chain (fun a b => b.1 < a.1 + DEBOUNCE_DELAY) hd evs := by
  intro evs
  induction evs with
  | nil =>
    intro hd _
    exact List.Chain.nil
  | cons b rest ih =>
    intro hd h
    simp only [gapsOk, Bool.and_eq_true, decide_eq_true_eq] at h
    exact List.chain_cons.mpr ⟨h.1, ih h.2⟩

theorem C7_single_batch_contains_all (evs : List (Nat × List Nat)) (n : Nat)
    (hne : evs ≠ [])
    (hchain : gapsOk evs = true)
    (hjoin : (evs.map Prod.snd).flatten ≠ []) :
    (timedRun initMut evs).2 = [accumAll [] evs] ∧
    (n ∈ accumAll [] evs ↔ n ∈ (evs.map Prod.snd).flatten) ∧
    (timedRun initMut evs).1 = initMut := by
  obtain ⟨e1, rest, rfl⟩ := List.exists_cons_of_ne_nil hne
  obtain ⟨t1, ns1⟩ := e1
  have hch : List.Chain (fun a b => b.1 < a.1 + DEBOUNCE_DELAY) (t1, ns1) rest :=
    chain_of_gapsOk hchain
  have hstep : timedRun initMut ((t1, ns1) :: rest) =
      timedRun ⟨addNodes [] ns1, some (t1 + DEBOUNCE_DELAY)⟩ rest := rfl
  have hacc : accumAll [] ((t1, ns1) :: rest) = accumAll (addNodes [] ns1) rest := rfl
  have hAne : accumAll [] ((t1, ns1) :: rest) ≠ [] := by
    obtain ⟨x, hx⟩ := List.exists_mem_of_ne_nil _ hjoin
    exact List.ne_nil_of_mem (mem_accumAll.mpr (Or.inr hx))
  have hrun := timedRun_no_fire rest (t1, ns1) (addNodes [] ns1) hch
  rw [hstep, hrun, hacc, if_neg (hacc ▸ hAne)]
  refine ⟨rfl, ?_, rfl⟩
  rw [mem_accumAll, mem_addNodes]
  simp

/-- Witness for C7: the 40-notification scenario, nodes 0..39 notified at
times 0..39, all within the 100-unit window. -/
theorem C7_witness :
    sampleMutEvs ≠ [] ∧
    gapsOk sampleMutEvs = true ∧
    (sampleMutEvs.map Prod.snd).flatten ≠ [] ∧
    ((timedRun initMut sampleMutEvs).2 = [accumAll [] sampleMutEvs] ∧
      (7 ∈ accumAll [] sampleMutEvs ↔ 7 ∈ (sampleMutEvs.map Prod.snd).flatten) ∧
      (timedRun initMut sampleMutEvs).1 = initMut) :=
  ⟨by decide, by decide, by decide,
   C7_single_batch_contains_all sampleMutEvs 7 (by decide) (by decide) (by decide)⟩

/-- C4 counterexample: a batch containing one item whose hash "h" is already
in the server cache.  The claim says such an item is answered immediately by
the connection handler without going through the BoundedWorkQueue; in the
code the handler pushes every item onto the queue and sends only an ack — the
cached result is sent later, by the queued task itself (with no provider
call, as the failing provider here shows). -/
theorem C4_counterexample_hit_is_queued :
    (handleConnMessage [sampleReq] 0).1 = [sampleTask] ∧
    (handleConnMessage [sampleReq] 0).2 = [SrvOut.ack 0 1] ∧
    runTask (fun _ _ => Except.error []) [(str "h", str "v")] sampleTask (fun _ => true) =
      ([(str "h", str "v")], [SrvOut.result 0 (str "h") (str "t") (str "v")], 0) := by
  refine ⟨by decide, by decide, ?_⟩
  decide

/-- C4 amended: the connection handler submits every item of a received batch
as a work task to the BoundedWorkQueue and sends only an ack; the cache check
happens inside the queued task: a task whose hash is in the server cache
sends the cached result back on the same connection with zero provider calls
(and leaves the cache unchanged), and only a task whose hash misses the cache
makes a provider call. -/
theorem C4_amended_every_item_queued_cache_checked_in_task
    (payload : List Request) (conn : Nat) (cache : List (Str × Str))
    (provider : Str → Str → Except Str Str) (connOpen : Nat → Bool)
    (t1 t2 : STask) (v : Str)
    (hhit : alookup t1.item.hash cache = some v)
    (hmiss : alookup t2.item.hash cache = none) :
    (handleConnMessage payload conn).1 =
      payload.map (fun it => ⟨it, conn, batchLang payload⟩) ∧
    (handleConnMessage payload conn).2 = [SrvOut.ack conn payload.length] ∧
    runTask provider cache t1 connOpen =
      (cache,
       (if connOpen t1.conn then
          [SrvOut.result t1.conn t1.item.hash t1.item.text v] else []),
       0) ∧
    (runTask provider cache t2 connOpen).2.2 = 1 := by
  refine ⟨rfl, rfl, ?_, ?_⟩
  · unfold runTask
    rw [hhit]
  · unfold runTask
    rw [hmiss]
    cases provider t2.item.text t2.targetLang <;> simp

/-- Witness for C4's amended theorem: a hit task for cached hash "h" and a
miss task for uncached hash "m". -/
theorem C4_witness :
    alookup sampleTask.item.hash [(str "h", str "v")] = some (str "v") ∧
    alookup (STask.mk ⟨str "u", str "m", str "es"⟩ 0 (str "es")).item.hash
      [(str "h", str "v")] = none ∧
    ((handleConnMessage [sampleReq] 0).1 =
        [sampleReq].map (fun it => ⟨it, 0, batchLang [sampleReq]⟩) ∧
      (handleConnMessage [sampleReq] 0).2 = [SrvOut.ack 0 1] ∧
      runTask (fun _ _ => Except.error []) [(str "h", str "v")] sampleTask (fun _ => true) =
        ([(str "h", str "v")],
         (if (fun _ => true) sampleTask.conn then
            [SrvOut.result sampleTask.conn sampleTask.item.hash sampleTask.item.text (str "v")]
          else []),
         0) ∧
      (runTask (fun _ _ => Except.error []) [(str "h", str "v")]
          (STask.mk ⟨str "u", str "m", str "es"⟩ 0 (str "es")) (fun _ => true)).2.2 = 1) :=
  ⟨by decide, by decide,
   C4_amended_every_item_queued_cache_checked_in_task [sampleReq] 0 [(str "h", str "v")]
     (fun _ _ => Except.error []) (fun _ => true) sampleTask
     (STask.mk ⟨str "u", str "m", str "es"⟩ 0 (str "es")) (str "v")
     (by decide) (by decide)⟩

/-- C8: when the provider call for a cache-missing item fails, the task is
abandoned: the server cache is unchanged, no result message is sent, the call
is counted, and the failure does not affect the rest of the queue or the
connection — the remaining tasks produce exactly the same cache, the same
messages and the same provider calls as if the failing task had never been
queued. -/
theorem C8_provider_failure_abandons_task
    (provider : Str → Str → Except Str Str) (cache : List (Str × Str))
    (t : STask) (rest : List STask) (connOpen : Nat → Bool) (e : Str)
    (hmiss : alookup t.item.hash cache = none)
    (hfail : provider t.item.text t.targetLang = Except.error e) :
    runTask provider cache t connOpen = (cache, [], 1) ∧
    (runTasks provider cache (t :: rest) connOpen).1 =
      (runTasks provider cache rest connOpen).1 ∧
    (runTasks provider cache (t :: rest) connOpen).2.1 =
      (runTasks provider cache rest connOpen).2.1 ∧
    (runTasks provider cache (t :: rest) connOpen).2.2 =
      1 + (runTasks provider cache rest connOpen).2.2 := by
  have h1 : runTask provider cache t connOpen = (cache, [], 1) := by
    unfold runTask
    rw [hmiss, hfail]
  refine ⟨h1, ?_, ?_, ?_⟩ <;>
    simp [runTasks, h1]

/-- Witness for C8: a failing provider on an uncached item, followed by one
more task. -/
theorem C8_witness :
    alookup sampleTask.item.hash ([] : List (Str × Str)) = none ∧
    (fun _ _ => (Except.error (str "boom") : Except Str Str)) sampleTask.item.text
      sampleTask.targetLang = Except.error (str "boom") ∧
    (runTask (fun _ _ => Except.error (str "boom")) [] sampleTask (fun _ => true) =
        ([], [], 1) ∧
      (runTasks (fun _ _ => Except.error (str "boom")) [] (sampleTask :: [sampleTask])
          (fun _ => true)).1 =
        (runTasks (fun _ _ => Except.error (str "boom")) [] [sampleTask] (fun _ => true)).1 ∧
      (runTasks (fun _ _ => Except.error (str "boom")) [] (sampleTask :: [sampleTask])
          (fun _ => true)).2.1 =
        (runTasks (fun _ _ => Except.error (str "boom")) [] [sampleTask] (fun _ => true)).2.1 ∧
      (runTasks (fun _ _ => Except.error (str "boom")) [] (sampleTask :: [sampleTask])
          (fun _ => true)).2.2 =
        1 + (runTasks (fun _ _ => Except.error (str "boom")) [] [sampleTask]
          (fun _ => true)).2.2) :=
  ⟨by decide, rfl,
   C8_provider_failure_abandons_task (fun _ _ => Except.error (str "boom")) [] sampleTask
     [sampleTask] (fun _ => true) (str "boom") (by decide) rfl⟩

theorem alookup_append_of_none {α β : Type} [DecidableEq α] {k : α}
    {l l2 : List (α × β)} (h : alookup k l = none) :
    alookup k (l ++ l2) = alookup k l2 := by
  induction l with
  | nil => rfl
  | cons p rest ih =>
    by_cases hp : p.1 = k
    · simp [alookup, hp] at h
    · have h' : alookup k rest = none := by simpa [alookup, hp] using h
      show (if p.1 = k then some p.2 else alookup k (rest ++ l2)) = alookup k l2
      rw [if_neg hp]
      exact ih h'

theorem alookup_map_update {h : Str} {v : List Item} :
    ∀ {p : List (Str × List Item)} {s : List Item}, alookup h p = some s →
      alookup h (p.map (fun e => if e.1 = h then (h, v) else e)) = some v := by
  intro p
  induction p with
  | nil => intro s hs; simp [alookup] at hs
  | cons e rest ih =>
    intro s hs
    by_cases he : e.1 = h
    · simp [alookup, he]
    · simp only [alookup, he, if_neg, not_false_iff] at hs
      simp only [List.map_cons, if_neg he]
      simp only [alookup, he, if_neg, not_false_iff]
      exact ih hs

theorem alookup_deleteKey {h : Str} :
    ∀ {p : List (Str × List Item)}, alookup h (deleteKey p h) = none := by
  intro p
  induction p with
  | nil => rfl
  | cons e rest ih =>
    by_cases he : e.1 = h
    · have heq : deleteKey (e :: rest) h = deleteKey rest h := by
        simp [deleteKey, List.filter_cons, he]
      rw [heq]
      exact ih
    · have heq : deleteKey (e :: rest) h = e :: deleteKey rest h := by
        simp [deleteKey, List.filter_cons, he]
      rw [heq]
      show (if e.1 = h then some e.2 else alookup h (deleteKey rest h)) = none
      rw [if_neg he]
      exact ih

theorem registerPending_pendingNodes_none {st : ClientState} {h : Str} {item : Item}
    (hn : alookup h st.pendingNodes = none) :
    (registerPending st h item).pendingNodes = st.pendingNodes ++ [(h, [item])] := by
  unfold registerPending
  rw [hn]

theorem registerPending_pendingNodes_some {st : ClientState} {h : Str} {item : Item}
    {s : List Item} (hs : alookup h st.pendingNodes = some s) :
    (registerPending st h item).pendingNodes =
      st.pendingNodes.map (fun e => if e.1 = h then (h, setAddItem s item) else e) := by
  unfold registerPending
  rw [hs]

theorem setAddItem_not_mem {s : List Item} {i : Item} (hi : i ∉ s) :
    setAddItem s i = s ++ [i] := by
  unfold setAddItem
  rw [if_neg hi]

theorem registerAll_cons (st : ClientState) (h : Str) (i : Item) (rest : List Item) :
    registerAll st h (i :: rest) = registerAll (registerPending st h i) h rest := rfl

theorem registerAll_lookup_acc {h : Str} :
    ∀ (items : List Item) (st : ClientState) (acc : List Item),
      alookup h st.pendingNodes = some acc → (∀ i ∈ items, i ∉ acc) → items.Nodup →
      alookup h (registerAll st h items).pendingNodes = some (acc ++ items) := by
  intro items
  induction items with
  | nil =>
    intro st acc hacc _ _
    simpa [registerAll] using hacc
  | cons i rest ih =>
    intro st acc hacc hdisj hnd
    rw [registerAll_cons]
    have hadd : setAddItem acc i = acc ++ [i] :=
      setAddItem_not_mem (hdisj i (List.mem_cons_self _ _))
    have hlook : alookup h (registerPending st h i).pendingNodes = some (acc ++ [i]) := by
      rw [registerPending_pendingNodes_some hacc, ← hadd]
      exact alookup_map_update hacc
    have hnd' := hnd
    rw [List.nodup_cons] at hnd'
    have hres := ih (registerPending st h i) (acc ++ [i]) hlook ?_ hnd'.2
    · rw [hres]
      simp
    · intro j hj
      simp only [List.mem_append, List.mem_singleton]
      rintro (hja | rfl)
      · exact hdisj j (List.mem_cons_of_mem _ hj) hja
      · exact hnd'.1 hj

theorem handleMessage_pendingNodes_lookup {st : ClientState} {h translated : Str}
    {items : List Item} (hl : alookup h st.pendingNodes = some items) :
    handleMessage st h translated =
      ({ st with cache := setTranslation st.maxSize st.cache h (finalTranslation translated),
                 pendingNodes := deleteKey st.pendingNodes h },
       items.map (fun i => Out.write i.loc (finalTranslation translated))) := by
  unfold handleMessage
  simp only [hl]

theorem handleMessage_pendingNodes_none {st : ClientState} {h translated : Str}
    (hl : alookup h st.pendingNodes = none) :
    handleMessage st h translated =
      ({ st with cache := setTranslation st.maxSize st.cache h (finalTranslation translated) },
       []) := by
  unfold handleMessage
  simp only [hl]

/-- C2: after N register calls for hash H (with distinct, previously
unregistered locations), resolving H applies the (prefixed) translation to
exactly those locations, in registration order, and removes the pending entry
for H in the same step; resolving H again with no intervening register calls
applies the translation to no location. -/
theorem C2_resolve_applies_all_then_second_is_noop
    (st : ClientState) (h v : Str) (items : List Item)
    (hnone : alookup h st.pendingNodes = none) (hnd : items.Nodup) :
    (handleMessage (registerAll st h items) h v).2 =
      items.map (fun i => Out.write i.loc (finalTranslation v)) ∧
    alookup h (handleMessage (registerAll st h items) h v).1.pendingNodes = none ∧
    (handleMessage (handleMessage (registerAll st h items) h v).1 h v).2 = [] := by
  cases items with
  | nil =>
    rw [show registerAll st h [] = st from rfl]
    have h1 := @handleMessage_pendingNodes_none st h v hnone
    have hstate : (handleMessage st h v).1.pendingNodes = st.pendingNodes := by
      rw [h1]
    have hl2 : alookup h (handleMessage st h v).1.pendingNodes = none := by
      rw [hstate]
      exact hnone
    refine ⟨by rw [h1]; rfl, hl2, ?_⟩
    rw [handleMessage_pendingNodes_none hl2]
  | cons i rest =>
    have hlook1 : alookup h (registerPending st h i).pendingNodes = some [i] := by
      rw [registerPending_pendingNodes_none hnone]
      rw [alookup_append_of_none hnone]
      simp [alookup]
    have hnd' := hnd
    rw [List.nodup_cons] at hnd'
    have hlook : alookup h (registerAll st h (i :: rest)).pendingNodes =
        some (i :: rest) := by
      rw [registerAll_cons]
      have hacc := registerAll_lookup_acc rest (registerPending st h i) [i] hlook1 ?_ hnd'.2
      · simpa using hacc
      · intro j hj
        simp only [List.mem_singleton]
        rintro rfl
        exact hnd'.1 hj
    have hmsg := @handleMessage_pendingNodes_lookup (registerAll st h (i :: rest)) h v (i :: rest) hlook
    have hl2 : alookup h (handleMessage (registerAll st h (i :: rest)) h v).1.pendingNodes =
        none := by
      rw [hmsg]
      exact alookup_deleteKey
    refine ⟨by rw [hmsg], hl2, ?_⟩
    rw [handleMessage_pendingNodes_none hl2]

/-- Witness for C2: two distinct locations registered for hash "h" on a fresh
client. -/
theorem C2_witness :
    alookup (str "h") (initClient (str "es")).pendingNodes = none ∧
    (([⟨0, str "t", str "h"⟩, ⟨1, str "t", str "h"⟩] : List Item)).Nodup ∧
    ((handleMessage (registerAll (initClient (str "es")) (str "h")
          [⟨0, str "t", str "h"⟩, ⟨1, str "t", str "h"⟩]) (str "h") (str "X")).2 =
        ([⟨0, str "t", str "h"⟩, ⟨1, str "t", str "h"⟩] : List Item).map
          (fun i => Out.write i.loc (finalTranslation (str "X"))) ∧
      alookup (str "h") (handleMessage (registerAll (initClient (str "es")) (str "h")
          [⟨0, str "t", str "h"⟩, ⟨1, str "t", str "h"⟩]) (str "h") (str "X")).1.pendingNodes =
        none ∧
      (handleMessage (handleMessage (registerAll (initClient (str "es")) (str "h")
          [⟨0, str "t", str "h"⟩, ⟨1, str "t", str "h"⟩]) (str "h") (str "X")).1
        (str "h") (str "X")).2 = []) :=
  ⟨by decide, by decide,
   C2_resolve_applies_all_then_second_is_noop (initClient (str "es")) (str "h") (str "X")
     [⟨0, str "t", str "h"⟩, ⟨1, str "t", str "h"⟩] (by decide) (by decide)⟩

theorem startsWith_append_self : ∀ (p v : Str), startsWith p (p ++ v) = true := by
  intro p
  induction p with
  | nil => intro v; rfl
  | cons a as ih =>
    intro v
    simp [startsWith, ih]

theorem finalTranslation_marked (v : Str) :
    startsWith TRANSLATION_PREFIX (finalTranslation v) = true := by
  unfold finalTranslation
  split
  · assumption
  · exact startsWith_append_self _ _

theorem marked_eq_cons {v : Str} (hv : startsWith TRANSLATION_PREFIX v = true) :
    ∃ t, v = zwsp :: t := by
  have hpre : TRANSLATION_PREFIX = [zwsp] := rfl
  rw [hpre] at hv
  cases v with
  | nil => simp [startsWith] at hv
  | cons b bs =>
    simp [startsWith] at hv
    exact ⟨bs, by rw [hv]⟩

theorem jsTrim_marked {v : Str} (hv : startsWith TRANSLATION_PREFIX v = true) :
    jsTrim v = [] ∨ ∃ t, jsTrim v = zwsp :: t := by
  obtain ⟨tail, rfl⟩ := marked_eq_cons hv
  have hz : isJsWhitespace zwsp = false := by decide
  have hdw : (zwsp :: tail).dropWhile isJsWhitespace = zwsp :: tail := by
    simp [List.dropWhile_cons, hz]
  unfold jsTrim
  rw [hdw]
  have hsuf : (zwsp :: tail).reverse.dropWhile isJsWhitespace <:+ (zwsp :: tail).reverse :=
    List.dropWhile_suffix _
  have hpre : dropWhileEnd isJsWhitespace (zwsp :: tail) <+: (zwsp :: tail) := by
    unfold dropWhileEnd
    have h2 := List.reverse_prefix.mpr hsuf
    rwa [List.reverse_reverse] at h2
  obtain ⟨rem, hrem⟩ := hpre
  rcases htr : dropWhileEnd isJsWhitespace (zwsp :: tail) with _ | ⟨c, cs⟩
  · exact Or.inl rfl
  · right
    rw [htr] at hrem
    have hc : c = zwsp := by
      have hh := congrArg List.head? hrem
      simpa using hh
    exact ⟨cs, by rw [hc]⟩

theorem shouldTranslateText_of_marked (restPolicy : Str → Bool) {v : Str}
    (hv : startsWith TRANSLATION_PREFIX v = true) :
    shouldTranslateText restPolicy v = false := by
  unfold shouldTranslateText
  rcases jsTrim_marked hv with htr | ⟨t, htr⟩
  · rw [htr]
    simp
  · rw [htr]
    by_cases hlen : zwsp :: t = [] ∨ (zwsp :: t).length < MIN_TEXT_LENGTH
    · rw [if_pos hlen]
    · rw [if_neg hlen]
      have hsw : startsWith TRANSLATION_PREFIX (zwsp :: t) = true := by
        have hpre : TRANSLATION_PREFIX = [zwsp] := rfl
        rw [hpre]
        simp [startsWith]
      rw [if_pos hsw]

theorem mem_mapSet {m : List (Str × Str)} {k v : Str} {p : Str × Str}
    (hp : p ∈ mapSet m k v) : p ∈ m ∨ p = (k, v) := by
  unfold mapSet at hp
  by_cases hs : (alookup k m).isSome
  · rw [if_pos hs] at hp
    obtain ⟨q, hq, hqe⟩ := List.mem_map.mp hp
    by_cases hqh : q.1 = k
    · rw [if_pos hqh] at hqe
      exact Or.inr hqe.symm
    · rw [if_neg hqh] at hqe
      exact Or.inl (hqe ▸ hq)
  · rw [if_neg hs] at hp
    rcases List.mem_append.mp hp with hq | hq
    · exact Or.inl hq
    · right
      simpa using hq

theorem mem_setTranslation {cache : List (Str × Str)} {maxSize : Nat} {h v : Str}
    {p : Str × Str} (hp : p ∈ setTranslation maxSize cache h v) :
    p ∈ cache ∨ p = (h, v) := by
  simp only [setTranslation] at hp
  rcases mem_mapSet hp with hq | hq
  · by_cases hm : maxSize ≤ cache.length
    · rw [if_pos hm] at hq
      exact Or.inl (List.mem_of_mem_drop hq)
    · rw [if_neg hm] at hq
      exact Or.inl hq
  · exact Or.inr hq

theorem CacheInv_of_cache_eq {st st' : ClientState} (he : st'.cache = st.cache)
    (hinv : CacheInv st) : CacheInv st' := by
  intro p hp
  rw [he] at hp
  exact hinv p hp

theorem flushQueue_no_writes {st : ClientState} {loc : Nat} {v : Str}
    (hw : Out.write loc v ∈ (flushQueue st).2) : False := by
  unfold flushQueue at hw
  split at hw <;> simp at hw

theorem flushQueue_cache (st : ClientState) : (flushQueue st).1.cache = st.cache := by
  unfold flushQueue
  split <;> rfl

theorem flushIfConnected_no_writes {st : ClientState} {loc : Nat} {v : Str}
    (hw : Out.write loc v ∈ (flushIfConnected st).2) : False := by
  unfold flushIfConnected at hw
  split at hw
  · exact flushQueue_no_writes hw
  · simp at hw

theorem flushIfConnected_cache (st : ClientState) :
    (flushIfConnected st).1.cache = st.cache := by
  unfold flushIfConnected
  split
  · rw [flushQueue_cache]
  · rfl

theorem queueForTranslation_no_writes {st : ClientState} {text h : Str} {loc : Nat} {v : Str}
    (hw : Out.write loc v ∈ (queueForTranslation st text h).2) : False := by
  unfold queueForTranslation at hw
  split at hw
  · simp at hw
  · exact flushIfConnected_no_writes hw

theorem queueForTranslation_cache (st : ClientState) (text h : Str) :
    (queueForTranslation st text h).1.cache = st.cache := by
  unfold queueForTranslation
  split
  · rfl
  · rw [flushIfConnected_cache]
    rfl

theorem registerPending_cache (st : ClientState) (h : Str) (i : Item) :
    (registerPending st h i).cache = st.cache := by
  unfold registerPending
  split <;> rfl

theorem applyTranslation_hit {st : ClientState} {item : Item} {v0 : Str}
    (hl : alookup item.hash st.cache = some v0) :
    applyTranslation st item = (st, [Out.write item.loc v0]) := by
  unfold applyTranslation
  rw [hl]

theorem applyTranslation_miss {st : ClientState} {item : Item}
    (hl : alookup item.hash st.cache = none) :
    applyTranslation st item =
      (registerPending (queueForTranslation st item.text item.hash).1 item.hash item,
       (queueForTranslation st item.text item.hash).2 ++
         [Out.write item.loc (TRANSLATION_PREFIX ++ item.text)]) := by
  unfold applyTranslation
  rw [hl]

theorem CacheInv_handleMessage {st : ClientState} {h translated : Str}
    (hinv : CacheInv st) : CacheInv (handleMessage st h translated).1 := by
  cases hl : alookup h st.pendingNodes with
  | none =>
    rw [handleMessage_pendingNodes_none hl]
    intro p hp
    rcases mem_setTranslation hp with hq | hq
    · exact hinv p hq
    · rw [hq]
      exact finalTranslation_marked translated
  | some items =>
    rw [handleMessage_pendingNodes_lookup hl]
    intro p hp
    rcases mem_setTranslation hp with hq | hq
    · exact hinv p hq
    · rw [hq]
      exact finalTranslation_marked translated

/-- C10: the marker invariant.  Assuming every cached translation carries the
zero-width-space marker prefix (true initially, the cache being empty), every
client step preserves that invariant, and every value the step writes to a
location — a resolved translation, a cached translation or a pending
placeholder — carries the marker prefix and is classified as not translatable
by shouldTranslateText (for every instantiation of the external
classification policy), so content produced by the system is never
re-extracted, re-hashed or re-requested by later scans or mutation cycles. -/
theorem C10_marker_prefix_invariant (st : ClientState) (e : Ev) (loc : Nat) (v : Str)
    (restPolicy : Str → Bool)
    (hinv : CacheInv st)
    (hw : Out.write loc v ∈ (step st e).2) :
    CacheInv (step st e).1 ∧
    startsWith TRANSLATION_PREFIX v = true ∧
    shouldTranslateText restPolicy v = false := by
  have hmain : CacheInv (step st e).1 ∧ startsWith TRANSLATION_PREFIX v = true := by
    cases e with
    | applyItem item =>
      show CacheInv (applyTranslation st item).1 ∧ _
      cases hl : alookup item.hash st.cache with
      | some v0 =>
        have heq := applyTranslation_hit hl
        have hw' : Out.write loc v ∈ (applyTranslation st item).2 := hw
        rw [heq] at hw'
        simp at hw'
        refine ⟨by rw [heq]; exact hinv, ?_⟩
        rw [hw'.2]
        exact hinv _ (alookup_mem' hl)
      | none =>
        have heq := applyTranslation_miss hl
        have hw' : Out.write loc v ∈ (applyTranslation st item).2 := hw
        rw [heq] at hw'
        constructor
        · rw [heq]
          refine CacheInv_of_cache_eq ?_ hinv
          rw [registerPending_cache, queueForTranslation_cache]
        · rcases List.mem_append.mp hw' with hq | hq
          · exact (queueForTranslation_no_writes hq).elim
          · simp at hq
            rw [hq.2]
            exact startsWith_append_self _ _
    | queueTr text h =>
      exact (queueForTranslation_no_writes hw).elim
    | register h item =>
      simp [step] at hw
    | result h translated =>
      show CacheInv (handleMessage st h translated).1 ∧ _
      refine ⟨CacheInv_handleMessage hinv, ?_⟩
      cases hl : alookup h st.pendingNodes with
      | none =>
        have hw' : Out.write loc v ∈ (handleMessage st h translated).2 := hw
        rw [handleMessage_pendingNodes_none hl] at hw'
        simp at hw'
      | some items =>
        have hw' : Out.write loc v ∈ (handleMessage st h translated).2 := hw
        rw [handleMessage_pendingNodes_lookup hl] at hw'
        simp only [List.mem_map] at hw'
        obtain ⟨i, _, hie⟩ := hw'
        have hv : v = finalTranslation translated := by
          cases hie
          rfl
        rw [hv]
        exact finalTranslation_marked translated
    | sockOpen =>
      exact (flushQueue_no_writes hw).elim
    | sockClose =>
      simp [step] at hw
  exact ⟨hmain.1, hmain.2, shouldTranslateText_of_marked restPolicy hmain.2⟩

/-- Witness for C10: processing one item on a fresh (empty-cache) client
writes the marker-prefixed placeholder. -/
theorem C10_witness :
    CacheInv (initClient (str "es")) ∧
    Out.write 0 (TRANSLATION_PREFIX ++ str "t") ∈
      (step (initClient (str "es")) (Ev.applyItem sampleItem)).2 ∧
    (CacheInv (step (initClient (str "es")) (Ev.applyItem sampleItem)).1 ∧
      startsWith TRANSLATION_PREFIX (TRANSLATION_PREFIX ++ str "t") = true ∧
      shouldTranslateText (fun _ => true) (TRANSLATION_PREFIX ++ str "t") = false) :=
  ⟨by intro p hp; simp [initClient] at hp, by decide,
   C10_marker_prefix_invariant (initClient (str "es")) (Ev.applyItem sampleItem) 0
     (TRANSLATION_PREFIX ++ str "t") (fun _ => true)
     (by intro p hp; simp [initClient] at hp) (by decide)⟩

theorem batchHas_addReq {H : Str} {q : List Request} {r : Request} :
    batchHas H (addReq q r) = (batchHas H q || decide (r.hash = H)) := by
  unfold addReq
  split
  · rename_i hin
    cases hd : decide (r.hash = H)
    · simp
    · simp only [Bool.or_true]
      have hr : r.hash = H := of_decide_eq_true hd
      exact List.any_eq_true.mpr ⟨r, hin, by simpa using hr⟩
  · simp [batchHas, List.any_append]

theorem countSends_append (H : Str) (a b : List Out) :
    countSends H (a ++ b) = countSends H a + countSends H b :=
  List.countP_append _ _ _

theorem countSends_send (H : Str) (b : List Request) :
    countSends H [Out.send b] = if batchHas H b then 1 else 0 := by
  simp [countSends, List.countP_cons, isSendWith]

theorem countSends_write (H : Str) (loc : Nat) (w : Str) :
    countSends H [Out.write loc w] = 0 := rfl

theorem countSends_map_write (H : Str) (l : List Item) (w : Str) :
    countSends H (l.map fun i => Out.write i.loc w) = 0 := by
  unfold countSends
  rw [List.countP_eq_zero]
  intro a ha
  obtain ⟨i, _, rfl⟩ := List.mem_map.mp ha
  simp [isSendWith]

theorem C1Inv_congr {H : Str} {st st' : ClientState} {n : Nat}
    (hq : st'.sendQueue = st.sendQueue) (hs : st'.sentHashes = st.sentHashes)
    (h : C1Inv H st n) : C1Inv H st' n := by
  obtain ⟨h1, h2⟩ := h
  have hqh : queueHas H st' = queueHas H st := by
    unfold queueHas
    rw [hq]
  constructor
  · rwa [hqh]
  · rw [hs, hqh]
    exact h2

theorem C1Inv_flushQueue {H : Str} {st : ClientState} {n : Nat} (h : C1Inv H st n) :
    C1Inv H (flushQueue st).1 (n + countSends H (flushQueue st).2) := by
  obtain ⟨h1, h2⟩ := h
  unfold flushQueue
  by_cases hq : st.sendQueue = []
  · rw [if_pos hq]
    exact ⟨h1, h2⟩
  · rw [if_neg hq]
    have hcnt : countSends H [Out.send st.sendQueue] = if queueHas H st then 1 else 0 :=
      countSends_send H st.sendQueue
    have hq0 : queueHas H { st with sendQueue := [] } = false := rfl
    constructor
    · rw [hcnt, hq0]
      simpa using h1
    · intro hns
      have h2' := h2 hns
      rw [hcnt, hq0, h2'.2, h2'.1]
      exact ⟨rfl, rfl⟩

theorem queueHas_enqueueRecord (H text h : Str) (st : ClientState) :
    queueHas H (enqueueRecord st text h) = (queueHas H st || decide (h = H)) := by
  show batchHas H (addReq st.sendQueue ⟨text, h, st.targetLang⟩) = _
  rw [batchHas_addReq]
  rfl

theorem C1Inv_queueForTranslation {H : Str} {st : ClientState} {n : Nat}
    (text h : Str) (hi : C1Inv H st n) :
    C1Inv H (queueForTranslation st text h).1
      (n + countSends H (queueForTranslation st text h).2) := by
  unfold queueForTranslation
  by_cases hs : h ∈ st.sentHashes
  · rw [if_pos hs]
    exact hi
  · rw [if_neg hs]
    have hinv1 : C1Inv H (enqueueRecord st text h) n := by
      obtain ⟨h1, h2⟩ := hi
      constructor
      · rw [queueHas_enqueueRecord]
        by_cases hH : h = H
        · subst hH
          have h2' := h2 hs
          rw [h2'.1, h2'.2]
          simp
        · rw [decide_eq_false hH, Bool.or_false]
          exact h1
      · intro hns
        have hns' : H ∉ st.sentHashes ∧ ¬H = h := by
          have hmem : H ∉ st.sentHashes ++ [h] := hns
          simpa using hmem
        have h2' := h2 hns'.1
        refine ⟨h2'.1, ?_⟩
        have hhH : ¬h = H := fun he => hns'.2 he.symm
        rw [queueHas_enqueueRecord, h2'.2, decide_eq_false hhH]
        rfl
    unfold flushIfConnected
    by_cases hc : (enqueueRecord st text h).isConnected = true
    · rw [if_pos hc]
      exact C1Inv_flushQueue hinv1
    · rw [if_neg hc]
      exact hinv1

theorem registerPending_sendQueue (st : ClientState) (h : Str) (i : Item) :
    (registerPending st h i).sendQueue = st.sendQueue := by
  unfold registerPending
  split <;> rfl

theorem registerPending_sentHashes (st : ClientState) (h : Str) (i : Item) :
    (registerPending st h i).sentHashes = st.sentHashes := by
  unfold registerPending
  split <;> rfl

theorem handleMessage_sendQueue (st : ClientState) (h t : Str) :
    (handleMessage st h t).1.sendQueue = st.sendQueue := by
  cases hl : alookup h st.pendingNodes with
  | none => rw [handleMessage_pendingNodes_none hl]
  | some items => rw [handleMessage_pendingNodes_lookup hl]

theorem handleMessage_sentHashes (st : ClientState) (h t : Str) :
    (handleMessage st h t).1.sentHashes = st.sentHashes := by
  cases hl : alookup h st.pendingNodes with
  | none => rw [handleMessage_pendingNodes_none hl]
  | some items => rw [handleMessage_pendingNodes_lookup hl]

theorem handleMessage_no_sends (H : Str) (st : ClientState) (h t : Str) :
    countSends H (handleMessage st h t).2 = 0 := by
  cases hl : alookup h st.pendingNodes with
  | none =>
    rw [handleMessage_pendingNodes_none hl]
    rfl
  | some items =>
    rw [handleMessage_pendingNodes_lookup hl]
    exact countSends_map_write H items _

theorem C1Inv_step {H : Str} {st : ClientState} {n : Nat} (e : Ev) (hi : C1Inv H st n) :
    C1Inv H (step st e).1 (n + countSends H (step st e).2) := by
  cases e with
  | queueTr text h => exact C1Inv_queueForTranslation text h hi
  | register h item =>
    exact C1Inv_congr (registerPending_sendQueue st h item)
      (registerPending_sentHashes st h item) hi
  | result h translated =>
    have hz := handleMessage_no_sends H st h translated
    show C1Inv H (handleMessage st h translated).1
      (n + countSends H (handleMessage st h translated).2)
    rw [hz]
    exact C1Inv_congr (handleMessage_sendQueue st h translated)
      (handleMessage_sentHashes st h translated) hi
  | sockOpen =>
    have hinv' : C1Inv H { st with isConnected := true, reconnectAttempts := 0 } n :=
      C1Inv_congr rfl rfl hi
    exact C1Inv_flushQueue hinv'
  | sockClose =>
    exact C1Inv_congr rfl rfl hi
  | applyItem item =>
    show C1Inv H (applyTranslation st item).1
      (n + countSends H (applyTranslation st item).2)
    cases hl : alookup item.hash st.cache with
    | some v0 =>
      rw [applyTranslation_hit hl, countSends_write]
      exact hi
    | none =>
      rw [applyTranslation_miss hl]
      have hq := @C1Inv_queueForTranslation H st n item.text item.hash hi
      have hcnt : countSends H ((queueForTranslation st item.text item.hash).2 ++
          [Out.write item.loc (TRANSLATION_PREFIX ++ item.text)]) =
          countSends H (queueForTranslation st item.text item.hash).2 := by
        rw [countSends_append, countSends_write, Nat.add_zero]
      rw [hcnt]
      exact C1Inv_congr (registerPending_sendQueue _ _ _)
        (registerPending_sentHashes _ _ _) hq

theorem C1Inv_run {H : Str} : ∀ (evs : List Ev) {st : ClientState} {n : Nat},
    C1Inv H st n → C1Inv H (run st evs).1 (n + countSends H (run st evs).2) := by
  intro evs
  induction evs with
  | nil =>
    intro st n hi
    exact hi
  | cons e rest ih =>
    intro st n hi
    have h2 := ih (C1Inv_step e hi)
    show C1Inv H (run (step st e).1 rest).1
      (n + countSends H ((step st e).2 ++ (run (step st e).1 rest).2))
    rw [countSends_append, ← Nat.add_assoc]
    exact h2

/-- C1: at-most-once dispatch.  In any client session starting from a fresh
client, at most one sent batch contains a request for hash H, however many
items with that hash are processed; and queueForTranslation on a hash already
in sentHashes leaves the state unchanged and sends nothing. -/
theorem C1_at_most_once_dispatch (H lang : Str) (evs : List Ev)
    (st : ClientState) (text : Str) (hs : H ∈ st.sentHashes) :
    countSends H (run (initClient lang) evs).2 ≤ 1 ∧
    queueForTranslation st text H = (st, []) := by
  constructor
  · have h0 : C1Inv H (initClient lang) 0 := by
      constructor
      · show 0 + (if queueHas H (initClient lang) then 1 else 0) ≤ 1
        have : queueHas H (initClient lang) = false := rfl
        rw [this]
        simp
      · intro _
        exact ⟨rfl, rfl⟩
    have hr := (C1Inv_run evs h0).1
    by_cases hqq : queueHas H (run (initClient lang) evs).1
    · rw [if_pos hqq] at hr
      omega
    · rw [if_neg hqq] at hr
      omega
  · unfold queueForTranslation
    rw [if_pos hs]

/-- Witness for C1: a concrete session that processes three items sharing
hash "h" across a connect and a result, and a state that has already sent
"h". -/
theorem C1_witness :
    str "h" ∈ witSt.sentHashes ∧
    (countSends (str "h") (run (initClient (str "es")) sampleEvs).2 ≤ 1 ∧
      queueForTranslation witSt (str "t") (str "h") = (witSt, [])) :=
  ⟨by decide,
   C1_at_most_once_dispatch (str "h") (str "es") sampleEvs witSt (str "t") (by decide)⟩

theorem flushIfConnected_of_disconnected {st : ClientState} (h : st.isConnected = false) :
    flushIfConnected st = (st, []) := by
  unfold flushIfConnected
  rw [if_neg (by rw [h]; exact Bool.false_ne_true)]

theorem flushIfConnected_of_connected {st : ClientState} (h : st.isConnected = true) :
    flushIfConnected st = flushQueue st := by
  unfold flushIfConnected
  rw [if_pos h]

theorem flushQueue_of_ne_nil {st : ClientState} (h : st.sendQueue ≠ []) :
    flushQueue st = ({ st with sendQueue := [] }, [Out.send st.sendQueue]) := by
  unfold flushQueue
  rw [if_neg h]

theorem addReq_ne_nil (q : List Request) (r : Request) : addReq q r ≠ [] := by
  unfold addReq
  split
  · rename_i hin
    exact List.ne_nil_of_mem hin
  · simp

/-- C9: while disconnected, enqueuing a not-yet-sent hash produces no send
and the request accumulates in the outbound queue; on the open transition the
whole accumulated queue is flushed as one single batch message, leaving the
queue empty; and while connected, enqueuing a not-yet-sent hash flushes
immediately as one batch containing the whole (now nonempty) queue, leaving
the queue empty. -/
theorem C9_offline_accumulation_flush_on_connect
    (st1 st2 st3 : ClientState) (text h : Str)
    (hdisc : st1.isConnected = false)
    (hfresh1 : h ∉ st1.sentHashes)
    (hq2 : st2.sendQueue ≠ [])
    (hconn3 : st3.isConnected = true)
    (hfresh3 : h ∉ st3.sentHashes) :
    (queueForTranslation st1 text h).2 = [] ∧
    (queueForTranslation st1 text h).1.sendQueue =
      addReq st1.sendQueue ⟨text, h, st1.targetLang⟩ ∧
    (onOpen st2).2 = [Out.send st2.sendQueue] ∧
    (onOpen st2).1.sendQueue = [] ∧
    (onOpen st2).1.isConnected = true ∧
    (queueForTranslation st3 text h).2 =
      [Out.send (addReq st3.sendQueue ⟨text, h, st3.targetLang⟩)] ∧
    (queueForTranslation st3 text h).1.sendQueue = [] := by
  have heq1 : queueForTranslation st1 text h = (enqueueRecord st1 text h, []) := by
    unfold queueForTranslation
    rw [if_neg hfresh1]
    exact flushIfConnected_of_disconnected hdisc
  have heq3 : queueForTranslation st3 text h =
      ({ enqueueRecord st3 text h with sendQueue := [] },
       [Out.send (enqueueRecord st3 text h).sendQueue]) := by
    unfold queueForTranslation
    rw [if_neg hfresh3]
    rw [@flushIfConnected_of_connected (enqueueRecord st3 text h) hconn3]
    exact flushQueue_of_ne_nil (addReq_ne_nil _ _)
  have heq2 : onOpen st2 =
      ({ { st2 with isConnected := true, reconnectAttempts := 0 } with sendQueue := [] },
       [Out.send st2.sendQueue]) := by
    show flushQueue { st2 with isConnected := true, reconnectAttempts := 0 } = _
    exact flushQueue_of_ne_nil hq2
  refine ⟨by rw [heq1], by rw [heq1]; rfl, by rw [heq2], by rw [heq2],
    by rw [heq2], by rw [heq3]; rfl, by rw [heq3]⟩

/-- Witness for C9: a fresh disconnected client, a disconnected client with
one queued request, and a connected client with an empty queue. -/
theorem C9_witness :
    (initClient (str "es")).isConnected = false ∧
    str "h" ∉ (initClient (str "es")).sentHashes ∧
    witStQueued.sendQueue ≠ [] ∧
    witStConn.isConnected = true ∧
    str "h" ∉ witStConn.sentHashes ∧
    ((queueForTranslation (initClient (str "es")) (str "t") (str "h")).2 = [] ∧
      (queueForTranslation (initClient (str "es")) (str "t") (str "h")).1.sendQueue =
        addReq (initClient (str "es")).sendQueue
          ⟨str "t", str "h", (initClient (str "es")).targetLang⟩ ∧
      (onOpen witStQueued).2 = [Out.send witStQueued.sendQueue] ∧
      (onOpen witStQueued).1.sendQueue = [] ∧
      (onOpen witStQueued).1.isConnected = true ∧
      (queueForTranslation witStConn (str "t") (str "h")).2 =
        [Out.send (addReq witStConn.sendQueue ⟨str "t", str "h", witStConn.targetLang⟩)] ∧
      (queueForTranslation witStConn (str "t") (str "h")).1.sendQueue = []) :=
  ⟨by decide, by decide, by decide, by decide, by decide,
   C9_offline_accumulation_flush_on_connect (initClient (str "es")) witStQueued witStConn
     (str "t") (str "h") (by decide) (by decide) (by decide) (by decide) (by decide)⟩

end MT
